import Mathlib

/-!
Verification of the docx-system provisioning declaration and of the
provisioning-engine core described by its specification.

The repository source (`src/infra/__main__.py`) is a declarative Pulumi
program: five Cloudflare resources, a SHA-256 derived credential, and eight
named exports. The engine that consumes such declarations (graph builder,
topological scheduler, apply algorithm, derived-value pipeline, output
exporter) is not part of the repository source; its definitions below are
modelled from the specification and marked as such in their doc comments.
The concrete declaration (`docxDescriptors`, `docxExports`) and the derived
credential hash (`sha256Hex`) are translated from the source file.
-/

/-- A declared input value: either a literal, or a reference to another
resource's output attribute (`Reference{targetLogicalName, attributePath}`).
Modelled from the spec: data model of the declaration layer (§3). -/
inductive Value where
  | lit : String → Value
  | ref : String → String → Value
deriving DecidableEq, Repr

/-- Immutable declaration of one desired resource.
Modelled from the spec: `ResourceDescriptor` (§3); `protect` and `importId`
are the policy flags. -/
structure ResourceDescriptor where
  logicalName : String
  kind : String
  inputs : List (String × Value)
  protect : Bool
  importId : Option String
deriving DecidableEq, Repr

/-- Runtime state of one applied node: the concrete (resolved) inputs the
run recorded and the live state the backend returned.
Modelled from the spec: `ResourceNode` (§3); a node present in the state map
is `Applied`, an absent one is `Pending`. -/
structure NodeState where
  recordedInputs : List (String × String)
  live : List (String × String)
deriving DecidableEq, Repr

/-- The map from logical name to applied node state. -/
abbrev StateMap := List (String × NodeState)

/-- One backend call issued during a run, tagged with the resource kind and
the logical name of the node it targets.
Modelled from the spec: provider backend contract (§6). -/
inductive BackendCall where
  | createCall : String → String → List (String × String) → BackendCall
  | readCall : String → String → String → BackendCall
  | updateCall : String → String → List (String × String) → BackendCall
  | deleteCall : String → String → BackendCall
deriving DecidableEq, Repr

/-- A pluggable provider backend: pure functions giving the live state
returned by create, read-by-id and update.
Modelled from the spec: provider backend contract (§6). -/
structure Backend where
  createLive : String → String → List (String × String) → List (String × String)
  readLive : String → String → List (String × String)
  updateLive : String → String → List (String × String) → List (String × String)

/-- The engine's error taxonomy. Modelled from the spec (§7). -/
inductive EngineError where
  | cyclicDependency : List String → EngineError
  | unresolvedReference : String → EngineError
  | missingAttribute : String → String → EngineError
  | protectedResource : String → EngineError
  | unresolvedExport : String → EngineError
deriving DecidableEq, Repr

/-- A value together with its sensitivity classification.
Modelled from the spec: secret classification is sticky (§3, §4.4). -/
structure TrackedValue where
  val : String
  secret : Bool
deriving DecidableEq, Repr

/-- The final export set: an ordered mapping from export name to tracked
value; the secret-marked entries form the spec's parallel secret set. -/
abbrev ExportSet := List (String × TrackedValue)

/-- The logical names a descriptor depends on: the targets of every
`Reference` among its input values. Modelled from the spec (§4.1): each
reference contributes a "target must apply first" edge. -/
def depsOf (d : ResourceDescriptor) : List String :=
  d.inputs.filterMap (fun kv =>
    match kv.2 with
    | Value.ref t _ => some t
    | Value.lit _ => none)

/-- A node is eligible once every dependency is already applied. -/
def eligibleB (applied : List String) (d : ResourceDescriptor) : Bool :=
  (depsOf d).all (fun t => applied.contains t)

/-- One fuel-indexed pass of the topological scheduler: repeatedly select
the declaration-earliest node with zero unresolved dependencies; if nodes
remain that can never become eligible, fail with `CyclicDependencyError`
naming them. Modelled from the spec: Topological Scheduler (§4.2),
tie-break by declaration order. -/
def scheduleAux : Nat → List String → List ResourceDescriptor →
    Except EngineError (List String)
  | 0, _, pending =>
    if pending.isEmpty then Except.ok []
    else Except.error (EngineError.cyclicDependency (pending.map (·.logicalName)))
  | fuel + 1, applied, pending =>
    match pending.find? (eligibleB applied) with
    | none =>
      if pending.isEmpty then Except.ok []
      else Except.error (EngineError.cyclicDependency (pending.map (·.logicalName)))
    | some d =>
      match scheduleAux fuel (applied ++ [d.logicalName]) (pending.erase d) with
      | Except.ok rest => Except.ok (d.logicalName :: rest)
      | Except.error e => Except.error e

/-- The scheduler entry point over an ordered descriptor list. -/
def schedule (ds : List ResourceDescriptor) : Except EngineError (List String) :=
  scheduleAux ds.length [] ds

/-- Checks, scanning an apply order left to right, that when each node's
apply begins every one of its dependencies has already reached Applied
(i.e. appears in the accumulated applied list). -/
def depsRespectedOrder (ds : List ResourceDescriptor) :
    List String → List String → Bool
  | _, [] => true
  | applied, n :: rest =>
    (match ds.find? (fun d => d.logicalName == n) with
     | some d => eligibleB applied d
     | none => false)
    && depsRespectedOrder ds (applied ++ [n]) rest

/-- Logical-name uniqueness invariant of a declaration (§3). -/
def uniqueNames (ds : List ResourceDescriptor) : Prop :=
  (ds.map (·.logicalName)).Nodup

instance (ds : List ResourceDescriptor) : Decidable (uniqueNames ds) := by
  unfold uniqueNames; infer_instance

/-- `n` depends on `m` in the declared graph. -/
def dependsOn (ds : List ResourceDescriptor) (n m : String) : Prop :=
  ∃ d ∈ ds, d.logicalName = n ∧ m ∈ depsOf d

/-- A nonempty cyclic chain of dependencies in the declared graph
(a single self-referencing node is the length-one case). -/
def isCycle (ds : List ResourceDescriptor) (c : List String) : Prop :=
  0 < c.length ∧
    ∀ i : Fin c.length,
      dependsOn ds (c.get i) (c.get ⟨(i.val + 1) % c.length, Nat.mod_lt _ i.pos⟩)

instance (ds : List ResourceDescriptor) (n m : String) :
    Decidable (dependsOn ds n m) := by
  unfold dependsOn; infer_instance

instance (ds : List ResourceDescriptor) (c : List String) :
    Decidable (isCycle ds c) := by
  unfold isCycle; infer_instance

/-- Extracts the node list of a cyclic-dependency failure, if that is what
the result is. -/
def cyclicNames {α : Type} : Except EngineError α → Option (List String)
  | Except.error (EngineError.cyclicDependency ns) => some ns
  | _ => none

/-- Resolves one declared input value against the applied-state map:
a literal stands for itself; a reference substitutes the referenced node's
already-applied live-state attribute, failing defensively with
`UnresolvedReferenceError` when the target is not yet applied.
Modelled from the spec: `resolveInputs` contract (§4.3). -/
def resolveValue (acc : StateMap) : Value → Except EngineError String
  | Value.lit s => Except.ok s
  | Value.ref t p =>
    match acc.lookup t with
    | none => Except.error (EngineError.unresolvedReference t)
    | some st =>
      match st.live.lookup p with
      | none => Except.error (EngineError.missingAttribute t p)
      | some v => Except.ok v

/-- Resolves a list of declared inputs, preserving attribute names and
order. Modelled from the spec: `resolveInputs` (§4.3). -/
def resolveList (acc : StateMap) :
    List (String × Value) → Except EngineError (List (String × String))
  | [] => Except.ok []
  | kv :: rest =>
    match resolveValue acc kv.2 with
    | Except.error e => Except.error e
    | Except.ok v =>
      match resolveList acc rest with
      | Except.error e => Except.error e
      | Except.ok rs => Except.ok ((kv.1, v) :: rs)

/-- Resolves every input of a descriptor.
Modelled from the spec: `resolveInputs` (§4.3). -/
def resolveInputs (acc : StateMap) (d : ResourceDescriptor) :
    Except EngineError (List (String × String)) :=
  resolveList acc d.inputs

/-- Input mappings are well formed: within each descriptor the declared
attribute names are distinct (§3: `inputs` is a mapping). -/
def wfInputs (ds : List ResourceDescriptor) : Prop :=
  ∀ d ∈ ds, (d.inputs.map Prod.fst).Nodup

instance (ds : List ResourceDescriptor) : Decidable (wfInputs ds) := by
  unfold wfInputs; infer_instance

/-- The changed fields of the concrete inputs relative to the previously
recorded inputs. Modelled from the spec: the diff step of the apply policy
(§4.3). -/
def inputDiff (recorded ci : List (String × String)) : List (String × String) :=
  ci.filter (fun kv => !(recorded.lookup kv.1 == some kv.2))

/-- The apply policy for one node. Modelled from the spec (§4.3):
an import-by-id when `importId` is set and no managed state exists; create when
no managed state exists; otherwise diff against the recorded inputs — a
no-op diff makes no backend call, a diff touching a replacement-requiring
attribute of a `protect=true` node fails with `ProtectedResourceError`, a
replacement of an unprotected node is delete-then-create, and any other
diff is an in-place update. `repl` says which attributes of a kind force
replacement. -/
def applyNode (b : Backend) (repl : String → String → Bool) (acc : StateMap)
    (prior : Option NodeState) (d : ResourceDescriptor) :
    Except EngineError (NodeState × List BackendCall) :=
  match resolveInputs acc d with
  | Except.error e => Except.error e
  | Except.ok ci =>
    match prior with
    | none =>
      match d.importId with
      | some iid =>
        Except.ok (⟨ci, b.readLive d.kind iid⟩,
          [BackendCall.readCall d.kind d.logicalName iid])
      | none =>
        Except.ok (⟨ci, b.createLive d.kind d.logicalName ci⟩,
          [BackendCall.createCall d.kind d.logicalName ci])
    | some ps =>
      let diff := inputDiff ps.recordedInputs ci
      if diff.isEmpty then Except.ok (ps, [])
      else if diff.any (fun kv => repl d.kind kv.1) then
        if d.protect then Except.error (EngineError.protectedResource d.logicalName)
        else
          Except.ok (⟨ci, b.createLive d.kind d.logicalName ci⟩,
            [BackendCall.deleteCall d.kind d.logicalName,
             BackendCall.createCall d.kind d.logicalName ci])
      else
        Except.ok (⟨ci, b.updateLive d.kind d.logicalName diff⟩,
          [BackendCall.updateCall d.kind d.logicalName diff])

/-- Applies the scheduled nodes in order, threading the applied-state map
and collecting every backend call issued, also on a failing run.
Modelled from the spec: the apply loop over the scheduler's order (§2, §4.3);
`prior` is the managed state left by an earlier run. -/
def runNodes (b : Backend) (repl : String → String → Bool)
    (ds : List ResourceDescriptor) (prior : StateMap) :
    List String → StateMap → (Except EngineError StateMap) × List BackendCall
  | [], acc => (Except.ok acc, [])
  | n :: rest, acc =>
    match ds.find? (fun d => d.logicalName == n) with
    | none => (Except.error (EngineError.unresolvedReference n), [])
    | some d =>
      match applyNode b repl acc (prior.lookup n) d with
      | Except.error e => (Except.error e, [])
      | Except.ok (st, calls) =>
        match runNodes b repl ds prior rest (acc ++ [(n, st)]) with
        | (r, t) => (r, calls ++ t)


/-- Addition modulo `2^32`, the word arithmetic of SHA-256. -/
def wadd (a b : Nat) : Nat := (a + b) % 4294967296

/-- Right rotation of a 32-bit word. -/
def rotr32 (n x : Nat) : Nat :=
  ((x >>> n) ||| (x <<< (32 - n))) % 4294967296

/-- The SHA-256 round constants of FIPS 180-4, as decimal naturals. -/
def sha256K : List Nat :=
  [1116352408, 1899447441, 3049323471, 3921009573, 961987163,
   1508970993, 2453635748, 2870763221, 3624381080, 310598401,
   607225278, 1426881987, 1925078388, 2162078206, 2614888103,
   3248222580, 3835390401, 4022224774, 264347078, 604807628,
   770255983, 1249150122, 1555081692, 1996064986, 2554220882,
   2821834349, 2952996808, 3210313671, 3336571891, 3584528711,
   113926993, 338241895, 666307205, 773529912, 1294757372,
   1396182291, 1695183700, 1986661051, 2177026350, 2456956037,
   2730485921, 2820302411, 3259730800, 3345764771, 3516065817,
   3600352804, 4094571909, 275423344, 430227734, 506948616,
   659060556, 883997877, 958139571, 1322822218, 1537002063,
   1747873779, 1955562222, 2024104815, 2227730452, 2361852424,
   2428436474, 2756734187, 3204031479, 3329325298]

/-- The SHA-256 initial hash value of FIPS 180-4, as decimal naturals. -/
def sha256H0 : List Nat :=
  [1779033703, 3144134277, 1013904242, 2773480762, 1359893119,
   2600822924, 528734635, 1541459225]

/-- UTF-8 encoding of one Unicode code point, as byte values. -/
def utf8EncodeCp (n : Nat) : List Nat :=
  if n < 0x80 then [n]
  else if n < 0x800 then
    [0xC0 ||| (n >>> 6), 0x80 ||| (n &&& 0x3F)]
  else if n < 0x10000 then
    [0xE0 ||| (n >>> 12), 0x80 ||| ((n >>> 6) &&& 0x3F), 0x80 ||| (n &&& 0x3F)]
  else
    [0xF0 ||| (n >>> 18), 0x80 ||| ((n >>> 12) &&& 0x3F),
     0x80 ||| ((n >>> 6) &&& 0x3F), 0x80 ||| (n &&& 0x3F)]

/-- UTF-8 byte sequence of a string (the `v.encode()` of the source). -/
def utf8Bytes (s : String) : List Nat :=
  s.data.foldr (fun c acc => utf8EncodeCp c.toNat ++ acc) []

/-- SHA-256 padding: append `0x80`, zeros to 56 mod 64, then the bit length
as eight big-endian bytes. -/
def sha256Pad (msg : List Nat) : List Nat :=
  let len := msg.length
  let zeros := (120 - ((len + 1) % 64)) % 64
  msg ++ [0x80] ++ List.replicate zeros 0 ++
    (List.range 8).map (fun i => ((8 * len) >>> (8 * (7 - i))) % 256)

/-- The sixteen big-endian 32-bit words of one 64-byte block. -/
def blockWords (block : List Nat) : List Nat :=
  (List.range 16).map (fun j =>
    (block.getD (4 * j) 0) <<< 24 ||| (block.getD (4 * j + 1) 0) <<< 16 |||
    (block.getD (4 * j + 2) 0) <<< 8 ||| block.getD (4 * j + 3) 0)

/-- The small sigma functions of the message schedule. -/
def ssig0 (x : Nat) : Nat := rotr32 7 x ^^^ rotr32 18 x ^^^ (x >>> 3)

/-- See `ssig0`. -/
def ssig1 (x : Nat) : Nat := rotr32 17 x ^^^ rotr32 19 x ^^^ (x >>> 10)

/-- The next message-schedule word from the words built so far. -/
def nextW (acc : List Nat) : Nat :=
  let n := acc.length
  wadd (wadd (ssig1 (acc.getD (n - 2) 0)) (acc.getD (n - 7) 0))
    (wadd (ssig0 (acc.getD (n - 15) 0)) (acc.getD (n - 16) 0))

/-- Extends the sixteen block words to the 64-entry message schedule. -/
def extendW (ws : List Nat) : List Nat :=
  (List.range 48).foldl (fun acc _ => acc ++ [nextW acc]) ws

/-- One SHA-256 compression round on the eight-word working state. -/
def sha256Round (st : List Nat) (kw : Nat × Nat) : List Nat :=
  let a := st.getD 0 0
  let b := st.getD 1 0
  let c := st.getD 2 0
  let d := st.getD 3 0
  let e := st.getD 4 0
  let f := st.getD 5 0
  let g := st.getD 6 0
  let h := st.getD 7 0
  let s1 := rotr32 6 e ^^^ rotr32 11 e ^^^ rotr32 25 e
  let ch := (e &&& f) ^^^ ((e ^^^ 0xFFFFFFFF) &&& g)
  let temp1 := wadd (wadd (wadd h s1) (wadd ch kw.1)) kw.2
  let s0 := rotr32 2 a ^^^ rotr32 13 a ^^^ rotr32 22 a
  let maj := (a &&& b) ^^^ (a &&& c) ^^^ (b &&& c)
  let temp2 := wadd s0 maj
  [wadd temp1 temp2, a, b, c, wadd d temp1, e, f, g]

/-- Compresses one 64-byte block into the running hash value. -/
def sha256Compress (h : List Nat) (block : List Nat) : List Nat :=
  let w := extendW (blockWords block)
  let st := (sha256K.zip w).foldl sha256Round h
  (h.zip st).map (fun p => wadd p.1 p.2)

/-- The eight 32-bit words of the SHA-256 digest of a string. -/
def sha256Words (s : String) : List Nat :=
  let padded := sha256Pad (utf8Bytes s)
  let nb := padded.length / 64
  ((List.range nb).map (fun i => (padded.drop (64 * i)).take 64)).foldl
    sha256Compress sha256H0

/-- Lowercase hexadecimal digit for a value below sixteen. -/
def hexChar (n : Nat) : Char :=
  if n < 10 then Char.ofNat (48 + n) else Char.ofNat (87 + n)

/-- The eight-character lowercase-hex rendering of one 32-bit word. -/
def word32Hex (w : Nat) : List Char :=
  (List.range 8).map (fun i => hexChar ((w >>> (4 * (7 - i))) % 16))

/-- The lowercase hexadecimal SHA-256 digest of a string: the
`hashlib.sha256(v.encode()).hexdigest()` of the source. -/
def sha256Hex (s : String) : String :=
  String.mk ((sha256Words s).foldr (fun w acc => word32Hex w ++ acc) [])


/-- Applies a pure derivation to a tracked value; the sensitivity of the
input carries to the output (sticky secret classification).
Modelled from the spec: Derived Value Pipeline (§4.4), and the
`token.value.apply(hash)` derivation of the source. -/
def applyDerived (f : String → String) (x : TrackedValue) : TrackedValue :=
  ⟨f x.val, x.secret⟩

/-- A derived top-level output: a pure function of one node's live-state
attribute. Modelled from the spec: `DerivedOutput` (§3). -/
structure DerivedOutput where
  sourceNode : String
  sourceAttr : String
  compute : String → String

/-- Where an export entry's value comes from: a value fixed by
configuration, a direct node attribute, or a derived output. -/
inductive ExportSource where
  | configVal : String → ExportSource
  | direct : String → String → ExportSource
  | derived : DerivedOutput → ExportSource

/-- One named export definition; `markSecret` is the explicit secret wrap
(`pulumi.Output.secret(...)` in the source). -/
structure ExportDef where
  name : String
  source : ExportSource
  markSecret : Bool

/-- A full declaration: the ordered descriptors plus the export list. -/
structure Declaration where
  descriptors : List ResourceDescriptor
  exports : List ExportDef

/-- Which live-state attributes the provider schema classifies secret:
of the attributes this declaration consumes, only the API token's `value`
(a bearer token) is secret. Modelled from the spec: live state includes
backend-generated secret tokens (§4.3) whose classification the pipeline
must track (§4.4). -/
def cloudflareSecretAttr (kind attr : String) : Bool :=
  kind == "cloudflare:ApiToken" && attr == "value"

/-- The sensitivity of a node attribute, looked up through the node's
declared kind. -/
def attrSecret (ds : List ResourceDescriptor) (node attr : String) : Bool :=
  match ds.find? (fun d => d.logicalName == node) with
  | some d => cloudflareSecretAttr d.kind attr
  | none => false

/-- Resolves one export definition against the applied states, tracking
sensitivity: an entry is secret when explicitly marked or when its source
attribute is secret-classified. Modelled from the spec: Output Exporter
(§4.5), failing with `UnresolvedExportError` when the source never reached
a resolved state. -/
def resolveExport (ds : List ResourceDescriptor) (sm : StateMap)
    (e : ExportDef) : Except EngineError TrackedValue :=
  match e.source with
  | ExportSource.configVal v => Except.ok ⟨v, e.markSecret⟩
  | ExportSource.direct n a =>
    match sm.lookup n with
    | none => Except.error (EngineError.unresolvedExport e.name)
    | some st =>
      match st.live.lookup a with
      | none => Except.error (EngineError.unresolvedExport e.name)
      | some v => Except.ok ⟨v, e.markSecret || attrSecret ds n a⟩
  | ExportSource.derived dd =>
    match sm.lookup dd.sourceNode with
    | none => Except.error (EngineError.unresolvedExport e.name)
    | some st =>
      match st.live.lookup dd.sourceAttr with
      | none => Except.error (EngineError.unresolvedExport e.name)
      | some v =>
        let tv := applyDerived dd.compute
          ⟨v, attrSecret ds dd.sourceNode dd.sourceAttr⟩
        Except.ok ⟨tv.val, e.markSecret || tv.secret⟩

/-- Assembles the export set in declared order. Modelled from the spec:
Output Exporter (§4.5). -/
def exportAll (ds : List ResourceDescriptor) (sm : StateMap) :
    List ExportDef → Except EngineError ExportSet
  | [] => Except.ok []
  | e :: rest =>
    match resolveExport ds sm e with
    | Except.error err => Except.error err
    | Except.ok tv =>
      match exportAll ds sm rest with
      | Except.error err => Except.error err
      | Except.ok es => Except.ok ((e.name, tv) :: es)

/-- A full run: schedule, apply every node in order, then materialize the
exports; the second component is the backend call trace, kept also for
failing runs. Modelled from the spec: control flow (§2). -/
def fullRun (decl : Declaration) (b : Backend) (repl : String → String → Bool)
    (prior : StateMap) :
    (Except EngineError (ExportSet × StateMap)) × List BackendCall :=
  match schedule decl.descriptors with
  | Except.error e => (Except.error e, [])
  | Except.ok order =>
    match runNodes b repl decl.descriptors prior order [] with
    | (Except.error e, t) => (Except.error e, t)
    | (Except.ok sm, t) =>
      match exportAll decl.descriptors sm decl.exports with
      | Except.error e => (Except.error e, t)
      | Except.ok es => (Except.ok (es, sm), t)

/-- The expected sensitivity of an export entry, read off its definition:
the explicit mark, or the classification of the source attribute. -/
def expectedSecret (ds : List ResourceDescriptor) (e : ExportDef) : Bool :=
  match e.source with
  | ExportSource.configVal _ => e.markSecret
  | ExportSource.direct n a => e.markSecret || attrSecret ds n a
  | ExportSource.derived dd =>
    e.markSecret || attrSecret ds dd.sourceNode dd.sourceAttr

/-- The logical name of the node a backend call targets. -/
def callName : BackendCall → String
  | BackendCall.createCall _ n _ => n
  | BackendCall.readCall _ n _ => n
  | BackendCall.updateCall _ n _ => n
  | BackendCall.deleteCall _ n => n

/-- Whether a backend call is a delete. -/
def isDelete : BackendCall → Bool
  | BackendCall.deleteCall _ _ => true
  | _ => false

/-- Whether a backend call is a read. -/
def isRead : BackendCall → Bool
  | BackendCall.readCall _ _ _ => true
  | _ => false

/-- Whether a backend call is a create. -/
def isCreate : BackendCall → Bool
  | BackendCall.createCall _ _ _ => true
  | _ => false

/-- Whether a backend call mutates backend state (create, update, delete —
everything except a read). -/
def isMutation (c : BackendCall) : Bool := !(isRead c)

/-- The API-token policy `resources` string of the source:
`json.dumps({f"com.cloudflare.api.account.{account_id}": "*"})`. -/
def tokenPolicyResources (accountId : String) : String :=
  "\x7b\"com.cloudflare.api.account." ++ accountId ++ "\": \"*\"\x7d"

/-- The five resource descriptors declared by `src/infra/__main__.py`, in
declaration order: the R2 bucket, the R2 API token (whose policy binds the
account through its `resources` string and carries the permission-group id
read from the provider), the storage KV namespace, the protected D1 auth
database, and the protected session KV namespace. -/
def docxDescriptors (accountId permGroupId : String) :
    List ResourceDescriptor :=
  [⟨"docx-storage", "cloudflare:R2Bucket",
    [("account_id", Value.lit accountId),
     ("name", Value.lit "docx-mcp-storage"),
     ("location", Value.lit "WEUR")], false, none⟩,
   ⟨"docx-r2-token", "cloudflare:ApiToken",
    [("name", Value.lit "docx-mcp-storage-r2"),
     ("policy_effect", Value.lit "allow"),
     ("policy_permission_group", Value.lit permGroupId),
     ("policy_resources", Value.lit (tokenPolicyResources accountId))],
    false, none⟩,
   ⟨"docx-storage-kv", "cloudflare:WorkersKvNamespace",
    [("account_id", Value.lit accountId),
     ("title", Value.lit "docx-mcp-storage-index")], false, none⟩,
   ⟨"docx-auth-db", "cloudflare:D1Database",
    [("account_id", Value.lit accountId),
     ("name", Value.lit "docx-mcp-auth"),
     ("read_replication_mode", Value.lit "disabled")], true, none⟩,
   ⟨"docx-session-kv", "cloudflare:WorkersKvNamespace",
    [("account_id", Value.lit accountId),
     ("title", Value.lit "SESSION")], true, none⟩]

/-- The eight named exports of `src/infra/__main__.py`, in source order;
`r2_secret_access_key` derives from the token's `value` through `sha256Hex`
and is the one export wrapped in `pulumi.Output.secret`. -/
def docxExports (accountId : String) : List ExportDef :=
  [⟨"cloudflare_account_id", ExportSource.configVal accountId, false⟩,
   ⟨"r2_bucket_name", ExportSource.direct "docx-storage" "name", false⟩,
   ⟨"r2_endpoint",
    ExportSource.configVal
      ("https://" ++ accountId ++ ".r2.cloudflarestorage.com"), false⟩,
   ⟨"r2_access_key_id", ExportSource.direct "docx-r2-token" "id", false⟩,
   ⟨"r2_secret_access_key",
    ExportSource.derived ⟨"docx-r2-token", "value", sha256Hex⟩, true⟩,
   ⟨"storage_kv_namespace_id",
    ExportSource.direct "docx-storage-kv" "id", false⟩,
   ⟨"auth_d1_database_id", ExportSource.direct "docx-auth-db" "id", false⟩,
   ⟨"session_kv_namespace_id",
    ExportSource.direct "docx-session-kv" "id", false⟩]

/-- The full declaration of the source program. -/
def docxDecl (accountId permGroupId : String) : Declaration :=
  ⟨docxDescriptors accountId permGroupId, docxExports accountId⟩

/-- A descriptor is declared under the given account: it carries the
account as its `account_id` input, or (the API token) binds the account
inside its policy `resources` string. -/
def usesAccount (aid : String) (d : ResourceDescriptor) : Prop :=
  d.inputs.lookup "account_id" = some (Value.lit aid) ∨
    d.inputs.lookup "policy_resources" =
      some (Value.lit (tokenPolicyResources aid))

instance (aid : String) (d : ResourceDescriptor) :
    Decidable (usesAccount aid d) := by
  unfold usesAccount; infer_instance

/-- A deterministic demonstration backend: create echoes the inputs and
fabricates `id` and `value` attributes, read returns the id, update returns
the diff. -/
def mockBackend : Backend where
  createLive := fun _ name ci => ci ++ [("id", name ++ "-id"), ("value", name ++ "-val")]
  readLive := fun _ iid => [("id", iid)]
  updateLive := fun _ _ diff => diff

/-- A replacement policy for demonstrations: no attribute forces
replacement. -/
def noRepl : String → String → Bool := fun _ _ => false


/-- A fresh demonstration run of the docx declaration against the
demonstration backend. -/
def demoRun1 : (Except EngineError (ExportSet × StateMap)) × List BackendCall :=
  fullRun (docxDecl "acct" "pg") mockBackend noRepl []

/-- The export set produced by the fresh demonstration run. -/
def demoEs : ExportSet :=
  match demoRun1.1 with
  | Except.ok (es, _) => es
  | Except.error _ => []

/-- The state map produced by the fresh demonstration run. -/
def demoSm : StateMap :=
  match demoRun1.1 with
  | Except.ok (_, sm) => sm
  | Except.error _ => []

/-- The backend call trace of the fresh demonstration run. -/
def demoTrace : List BackendCall := demoRun1.2

/-- A two-node demonstration graph in which `b` references an output of
`a`. -/
def demoGraphAB : List ResourceDescriptor :=
  [⟨"a", "k", [("x", Value.lit "1")], false, none⟩,
   ⟨"b", "k", [("r", Value.ref "a" "id")], false, none⟩]

/-- A two-node demonstration graph whose nodes are independent, so both
are eligible at once. -/
def demoGraphXY : List ResourceDescriptor :=
  [⟨"x", "k", [], false, none⟩, ⟨"y", "k", [], false, none⟩]

/-- A single-node demonstration graph whose node references itself. -/
def demoGraphSelf : List ResourceDescriptor :=
  [⟨"a", "k", [("r", Value.ref "a" "id")], false, none⟩]

/-- The protected D1 database descriptor of the docx declaration at the
demonstration configuration. -/
def demoAuthDb : ResourceDescriptor :=
  ⟨"docx-auth-db", "cloudflare:D1Database",
   [("account_id", Value.lit "acct"), ("name", Value.lit "docx-mcp-auth"),
    ("read_replication_mode", Value.lit "disabled")], true, none⟩

/-- A demonstration descriptor carrying an `importId`. -/
def demoImportD : ResourceDescriptor :=
  ⟨"imp", "k", [("x", Value.lit "1")], false, some "ext-1"⟩

/-- A replacement policy under which every attribute forces replacement. -/
def replAll : String → String → Bool := fun _ _ => true

theorem lookup_append_of_not_mem {β : Type} {l1 l2 : List (String × β)}
    {n : String} (h : n ∉ l1.map Prod.fst) :
    (l1 ++ l2).lookup n = l2.lookup n := by
  induction l1 with
  | nil => rfl
  | cons kv t ih =>
    obtain ⟨k, v⟩ := kv
    simp only [List.map_cons, List.mem_cons] at h
    push_neg at h
    simp only [List.cons_append, List.lookup_cons,
      beq_eq_false_iff_ne.mpr h.1]
    exact ih h.2

theorem lookup_eq_some_of_mem_nodup {β : Type} {l : List (String × β)}
    {k : String} {v : β} (hn : (l.map Prod.fst).Nodup) (h : (k, v) ∈ l) :
    l.lookup k = some v := by
  induction l with
  | nil => cases h
  | cons kv t ih =>
    simp only [List.map_cons, List.nodup_cons] at hn
    rcases List.mem_cons.mp h with h1 | h1
    · subst h1; exact List.lookup_cons_self
    · have hne : k ≠ kv.1 := by
        intro he
        exact hn.1 (he ▸ List.mem_map_of_mem Prod.fst h1)
      rcases kv with ⟨k1, v1⟩
      simp only [List.lookup_cons, beq_eq_false_iff_ne.mpr hne]
      exact ih hn.2 h1

theorem name_inj {ds : List ResourceDescriptor} (hu : uniqueNames ds)
    {d1 d2 : ResourceDescriptor} (h1 : d1 ∈ ds) (h2 : d2 ∈ ds)
    (he : d1.logicalName = d2.logicalName) : d1 = d2 :=
  List.inj_on_of_nodup_map hu h1 h2 he

theorem find?_name_self {ds : List ResourceDescriptor} (hu : uniqueNames ds)
    {d : ResourceDescriptor} (hd : d ∈ ds) :
    ds.find? (fun x => x.logicalName == d.logicalName) = some d := by
  induction ds with
  | nil => cases hd
  | cons e t ih =>
    simp only [uniqueNames, List.map_cons, List.nodup_cons] at hu
    rcases List.mem_cons.mp hd with h1 | h1
    · subst h1
      simp [List.find?]
    · have hne : e.logicalName ≠ d.logicalName := by
        intro he
        exact hu.1 (he ▸ List.mem_map_of_mem (·.logicalName) h1)
      simp only [List.find?, beq_eq_false_iff_ne.mpr hne]
      exact ih hu.2 h1

theorem scheduleAux_ok_sound {ds : List ResourceDescriptor}
    (hu : uniqueNames ds) :
    ∀ (fuel : Nat) (applied : List String)
      (pending : List ResourceDescriptor) (order : List String),
      pending ⊆ ds → scheduleAux fuel applied pending = Except.ok order →
      depsRespectedOrder ds applied order = true ∧
        ∀ d ∈ pending, d.logicalName ∈ order := by
  intro fuel
  induction fuel with
  | zero =>
    intro applied pending order hsub h
    simp only [scheduleAux] at h
    split at h
    · rename_i hp
      rw [List.isEmpty_iff] at hp
      subst hp
      cases h
      exact ⟨rfl, by intro d hd; cases hd⟩
    · cases h
  | succ fuel ih =>
    intro applied pending order hsub h
    simp only [scheduleAux] at h
    cases hf : pending.find? (eligibleB applied) with
    | none =>
      rw [hf] at h
      dsimp only at h
      split at h
      · rename_i hp
        rw [List.isEmpty_iff] at hp
        subst hp
        cases h
        exact ⟨rfl, by intro d hd; cases hd⟩
      · cases h
    | some d =>
      rw [hf] at h
      dsimp only at h
      cases hr : scheduleAux fuel (applied ++ [d.logicalName])
          (pending.erase d) with
      | error e => rw [hr] at h; cases h
      | ok rest =>
        rw [hr] at h
        cases h
        have hdmem : d ∈ pending := List.mem_of_find?_eq_some hf
        have helig : eligibleB applied d = true := List.find?_some hf
        have hsub2 : pending.erase d ⊆ ds :=
          fun x hx => hsub (List.erase_subset _ _ hx)
        obtain ⟨hdr, hcov⟩ := ih (applied ++ [d.logicalName])
          (pending.erase d) rest hsub2 hr
        constructor
        · simp only [depsRespectedOrder,
            find?_name_self hu (hsub hdmem), helig, hdr, Bool.and_self]
        · intro d' hd'
          by_cases hdd : d' = d
          · subst hdd; exact List.mem_cons_self _ _
          · exact List.mem_cons_of_mem _
              (hcov d' ((List.mem_erase_of_ne hdd).mpr hd'))

theorem scheduleAux_ok_nodup :
    ∀ (fuel : Nat) (applied : List String)
      (pending : List ResourceDescriptor) (order : List String),
      (pending.map (·.logicalName)).Nodup →
      scheduleAux fuel applied pending = Except.ok order →
      order.Nodup ∧ ∀ n ∈ order, n ∈ pending.map (·.logicalName) := by
  intro fuel
  induction fuel with
  | zero =>
    intro applied pending order _ h
    simp only [scheduleAux] at h
    split at h
    · cases h
      exact ⟨List.nodup_nil, by intro n hn; cases hn⟩
    · cases h
  | succ fuel ih =>
    intro applied pending order hnd h
    simp only [scheduleAux] at h
    cases hf : pending.find? (eligibleB applied) with
    | none =>
      rw [hf] at h
      dsimp only at h
      split at h
      · cases h
        exact ⟨List.nodup_nil, by intro n hn; cases hn⟩
      · cases h
    | some d =>
      rw [hf] at h
      dsimp only at h
      cases hr : scheduleAux fuel (applied ++ [d.logicalName])
          (pending.erase d) with
      | error e => rw [hr] at h; cases h
      | ok rest =>
        rw [hr] at h
        cases h
        have hdmem : d ∈ pending := List.mem_of_find?_eq_some hf
        obtain ⟨l1, l2, _, hpe, her⟩ := List.exists_erase_eq hdmem
        have hmapnd : (pending.map (·.logicalName)).Nodup := hnd
        rw [hpe, List.map_append, List.map_cons] at hmapnd
        have hmid := List.nodup_middle.mp hmapnd
        rw [List.nodup_cons] at hmid
        have hnderase : ((pending.erase d).map (·.logicalName)).Nodup := by
          rw [her, List.map_append]
          exact hmid.2
        obtain ⟨hno, hcov⟩ := ih (applied ++ [d.logicalName])
          (pending.erase d) rest hnderase hr
        constructor
        · refine List.nodup_cons.mpr ⟨fun hmem => ?_, hno⟩
          have := hcov _ hmem
          rw [her, List.map_append] at this
          exact hmid.1 this
        · intro n hn
          rcases List.mem_cons.mp hn with h1 | h1
          · subst h1
            exact List.mem_map_of_mem _ hdmem
          · have := hcov n h1
            rw [her, List.map_append] at this
            rw [hpe, List.map_append, List.map_cons]
            rcases List.mem_append.mp this with h2 | h2
            · exact List.mem_append.mpr (Or.inl h2)
            · exact List.mem_append.mpr
                (Or.inr (List.mem_cons_of_mem _ h2))

theorem scheduleAux_ok_head :
    ∀ (fuel : Nat) (applied : List String)
      (pending : List ResourceDescriptor) (n : String) (rest : List String),
      scheduleAux fuel applied pending = Except.ok (n :: rest) →
      (pending.find? (eligibleB applied)).map (·.logicalName) = some n := by
  intro fuel applied pending n rest h
  cases fuel with
  | zero =>
    simp only [scheduleAux] at h
    split at h
    · cases h
    · cases h
  | succ fuel =>
    simp only [scheduleAux] at h
    cases hf : pending.find? (eligibleB applied) with
    | none =>
      rw [hf] at h
      dsimp only at h
      split at h
      · cases h
      · cases h
    | some d =>
      rw [hf] at h
      dsimp only at h
      cases hr : scheduleAux fuel (applied ++ [d.logicalName])
          (pending.erase d) with
      | error e => rw [hr] at h; cases h
      | ok rest2 =>
        rw [hr] at h
        cases h
        rfl

theorem cycle_subset_names {ds : List ResourceDescriptor} {c : List String}
    (hc : isCycle ds c) : ∀ x ∈ c, x ∈ ds.map (·.logicalName) := by
  intro x hx
  obtain ⟨i, hi⟩ := List.mem_iff_get.mp hx
  obtain ⟨d, hd, hdn, _⟩ := hc.2 i
  subst hi
  exact hdn ▸ List.mem_map_of_mem (·.logicalName) hd

theorem scheduleAux_cycle {ds : List ResourceDescriptor} {c : List String}
    (hu : uniqueNames ds) (hc : isCycle ds c) :
    ∀ (fuel : Nat) (applied : List String)
      (pending : List ResourceDescriptor),
      pending ⊆ ds →
      (∀ x ∈ c, x ∈ pending.map (·.logicalName)) →
      (∀ x ∈ c, x ∉ applied) →
      ∃ ns, scheduleAux fuel applied pending =
          Except.error (EngineError.cyclicDependency ns) ∧
        ∀ x ∈ c, x ∈ ns := by
  have hcnil : c ≠ [] := List.ne_nil_of_length_pos hc.1
  intro fuel
  induction fuel with
  | zero =>
    intro applied pending hsub hin _
    have hpne : pending.isEmpty = false := by
      obtain ⟨x, hx⟩ := List.exists_mem_of_ne_nil c hcnil
      have := hin x hx
      rcases pending with _ | _
      · simp at this
      · rfl
    simp only [scheduleAux, hpne]
    exact ⟨_, by simp, fun x hx => hin x hx⟩
  | succ fuel ih =>
    intro applied pending hsub hin hnap
    simp only [scheduleAux]
    cases hf : pending.find? (eligibleB applied) with
    | none =>
      have hpne : pending.isEmpty = false := by
        obtain ⟨x, hx⟩ := List.exists_mem_of_ne_nil c hcnil
        have := hin x hx
        rcases pending with _ | _
        · simp at this
        · rfl
      dsimp only
      simp only [hpne]
      exact ⟨_, by simp, fun x hx => hin x hx⟩
    | some d =>
      have hdmem : d ∈ pending := List.mem_of_find?_eq_some hf
      have helig : eligibleB applied d = true := List.find?_some hf
      have hdnot : d.logicalName ∉ c := by
        intro hmem
        obtain ⟨i, hi⟩ := List.mem_iff_get.mp hmem
        obtain ⟨d', hd', hdn', hdep'⟩ := hc.2 i
        have hdd : d' = d :=
          name_inj hu hd' (hsub hdmem) (by rw [hdn', hi])
        subst hdd
        have hnext := hc.2 i
        set j : Fin c.length :=
          ⟨(i.val + 1) % c.length, Nat.mod_lt _ i.pos⟩ with hj
        have happ : c.get j ∈ applied := by
          have := (List.all_eq_true.mp helig) (c.get j) hdep'
          simpa [List.contains] using this
        exact hnap (c.get j) (List.get_mem c j.1 j.2) happ
      obtain ⟨l1, l2, _, hpe, her⟩ := List.exists_erase_eq hdmem
      have hin2 : ∀ x ∈ c, x ∈ (pending.erase d).map (·.logicalName) := by
        intro x hx
        have hxp := hin x hx
        have hxnot : x ≠ d.logicalName := fun he => hdnot (he ▸ hx)
        rw [hpe, List.map_append, List.map_cons] at hxp
        rw [her, List.map_append]
        rcases List.mem_append.mp hxp with h1 | h1
        · exact List.mem_append.mpr (Or.inl h1)
        · rcases List.mem_cons.mp h1 with h2 | h2
          · exact absurd h2 hxnot
          · exact List.mem_append.mpr (Or.inr h2)
      have hnap2 : ∀ x ∈ c, x ∉ applied ++ [d.logicalName] := by
        intro x hx hmem
        rcases List.mem_append.mp hmem with h1 | h1
        · exact hnap x hx h1
        · rcases List.mem_cons.mp h1 with h2 | h2
          · exact hdnot (h2 ▸ hx)
          · cases h2
      obtain ⟨ns, heq, hns⟩ := ih (applied ++ [d.logicalName])
        (pending.erase d)
        (fun x hx => hsub (List.erase_subset _ _ hx)) hin2 hnap2
      refine ⟨ns, ?_, hns⟩
      dsimp only
      rw [heq]

theorem applyNode_calls {b : Backend} {repl : String → String → Bool}
    {acc : StateMap} {prior : Option NodeState} {d : ResourceDescriptor}
    {st : NodeState} {calls : List BackendCall}
    (h : applyNode b repl acc prior d = Except.ok (st, calls)) :
    ∀ c ∈ calls, callName c = d.logicalName ∧
      (isDelete c = true → d.protect = false) := by
  intro c hc
  unfold applyNode at h
  cases hci : resolveInputs acc d with
  | error e => rw [hci] at h; cases h
  | ok ci =>
    rw [hci] at h
    dsimp only at h
    cases prior with
    | none =>
      cases him : d.importId with
      | some iid =>
        rw [him] at h
        dsimp only at h
        cases h
        rw [List.mem_singleton] at hc
        subst hc
        exact ⟨rfl, by intro habs; cases habs⟩
      | none =>
        rw [him] at h
        dsimp only at h
        cases h
        rw [List.mem_singleton] at hc
        subst hc
        exact ⟨rfl, by intro habs; cases habs⟩
    | some ps =>
      dsimp only at h
      split at h
      · cases h
        cases hc
      · split at h
        · split at h
          · cases h
          · rename_i hprot
            cases h
            rcases List.mem_cons.mp hc with h1 | h1
            · subst h1
              exact ⟨rfl, fun _ => by simpa using hprot⟩
            · rw [List.mem_singleton] at h1
              subst h1
              exact ⟨rfl, by intro habs; cases habs⟩
        · cases h
          rw [List.mem_singleton] at hc
          subst hc
          exact ⟨rfl, by intro habs; cases habs⟩

theorem applyNode_none_recorded {b : Backend} {repl : String → String → Bool}
    {acc : StateMap} {d : ResourceDescriptor} {st : NodeState}
    {calls : List BackendCall}
    (h : applyNode b repl acc none d = Except.ok (st, calls)) :
    resolveInputs acc d = Except.ok st.recordedInputs := by
  unfold applyNode at h
  cases hci : resolveInputs acc d with
  | error e => rw [hci] at h; cases h
  | ok ci =>
    rw [hci] at h
    dsimp only at h
    cases him : d.importId with
    | some iid => rw [him] at h; dsimp only at h; cases h; rfl
    | none => rw [him] at h; dsimp only at h; cases h; rfl

theorem resolveList_keys {acc : StateMap} :
    ∀ {l : List (String × Value)} {rs : List (String × String)},
      resolveList acc l = Except.ok rs → rs.map Prod.fst = l.map Prod.fst := by
  intro l
  induction l with
  | nil => intro rs h; cases h; rfl
  | cons kv rest ih =>
    intro rs h
    unfold resolveList at h
    cases hv : resolveValue acc kv.2 with
    | error e => rw [hv] at h; cases h
    | ok v =>
      rw [hv] at h
      dsimp only at h
      cases hr : resolveList acc rest with
      | error e => rw [hr] at h; cases h
      | ok rs2 =>
        rw [hr] at h
        dsimp only at h
        cases h
        simp only [List.map_cons]
        rw [ih hr]

theorem runNodes_ok_structure {b : Backend} {repl : String → String → Bool}
    {ds : List ResourceDescriptor} {prior : StateMap} :
    ∀ (order : List String) (acc sm : StateMap) (t : List BackendCall),
      runNodes b repl ds prior order acc = (Except.ok sm, t) →
      ∃ ext, sm = acc ++ ext ∧ ext.map Prod.fst = order := by
  intro order
  induction order with
  | nil =>
    intro acc sm t h
    unfold runNodes at h
    cases h
    exact ⟨[], by simp⟩
  | cons n rest ih =>
    intro acc sm t h
    unfold runNodes at h
    cases hfd : ds.find? (fun d => d.logicalName == n) with
    | none => rw [hfd] at h; cases h
    | some d =>
      rw [hfd] at h
      dsimp only at h
      cases ha : applyNode b repl acc (prior.lookup n) d with
      | error e => rw [ha] at h; cases h
      | ok stc =>
        rw [ha] at h
        dsimp only at h
        cases hrn : runNodes b repl ds prior rest (acc ++ [(n, stc.1)]) with
        | mk r t2 =>
          rw [hrn] at h
          dsimp only at h
          cases h
          obtain ⟨ext2, hsm, hmap⟩ := ih (acc ++ [(n, stc.1)]) sm t2 hrn
          refine ⟨(n, stc.1) :: ext2, ?_, ?_⟩
          · rw [hsm, List.append_assoc]
            rfl
          · simp [hmap]

theorem runNodes_calls_sound {b : Backend} {repl : String → String → Bool}
    {ds : List ResourceDescriptor} {prior : StateMap} :
    ∀ (order : List String) (acc : StateMap) (c : BackendCall),
      c ∈ (runNodes b repl ds prior order acc).2 →
      ∃ dn ∈ ds, callName c = dn.logicalName ∧
        (isDelete c = true → dn.protect = false) := by
  intro order
  induction order with
  | nil =>
    intro acc c hc
    simp only [runNodes] at hc
    cases hc
  | cons n rest ih =>
    intro acc c hc
    unfold runNodes at hc
    cases hfd : ds.find? (fun d => d.logicalName == n) with
    | none => rw [hfd] at hc; cases hc
    | some d =>
      rw [hfd] at hc
      dsimp only at hc
      cases ha : applyNode b repl acc (prior.lookup n) d with
      | error e => rw [ha] at hc; cases hc
      | ok stc =>
        obtain ⟨st1, calls1⟩ := stc
        rw [ha] at hc
        dsimp only at hc
        cases hrn : runNodes b repl ds prior rest (acc ++ [(n, st1)]) with
        | mk r t2 =>
          rw [hrn] at hc
          dsimp only at hc
          rcases List.mem_append.mp hc with h1 | h1
          · have hd : d ∈ ds := List.mem_of_find?_eq_some hfd
            exact ⟨d, hd, applyNode_calls ha c h1⟩
          · have := ih (acc ++ [(n, st1)]) c (by rw [hrn]; exact h1)
            exact this

theorem inputDiff_self {ci : List (String × String)}
    (hnd : (ci.map Prod.fst).Nodup) : inputDiff ci ci = [] := by
  unfold inputDiff
  rw [List.filter_eq_nil_iff]
  intro kv hkv
  have hl : ci.lookup kv.1 = some kv.2 :=
    lookup_eq_some_of_mem_nodup hnd (by exact hkv)
  simp [hl]

theorem runNodes_idem {b : Backend} {repl : String → String → Bool}
    {ds : List ResourceDescriptor} (hw : wfInputs ds) :
    ∀ (order : List String) (acc ext : StateMap) (t : List BackendCall),
      runNodes b repl ds [] order acc = (Except.ok (acc ++ ext), t) →
      ((acc ++ ext).map Prod.fst).Nodup →
      runNodes b repl ds (acc ++ ext) order acc =
        (Except.ok (acc ++ ext), []) := by
  intro order
  induction order with
  | nil =>
    intro acc ext t h _
    unfold runNodes at h
    rw [Prod.mk.injEq] at h
    have hacc : acc = acc ++ ext := by
      have := h.1
      exact Except.ok.inj this
    have hext : ext = [] := by
      have hlen := congrArg List.length hacc
      rw [List.length_append] at hlen
      have : ext.length = 0 := by omega
      exact List.eq_nil_of_length_eq_zero this
    subst hext
    simp [runNodes]
  | cons n rest ih =>
    intro acc ext t h hnd
    unfold runNodes at h ⊢
    cases hfd : ds.find? (fun d => d.logicalName == n) with
    | none => rw [hfd] at h; simp at h
    | some d =>
      rw [hfd] at h
      dsimp only at h
      simp only [List.lookup_nil] at h
      cases ha : applyNode b repl acc none d with
      | error e => rw [ha] at h; simp at h
      | ok stc =>
        obtain ⟨st, calls⟩ := stc
        rw [ha] at h
        dsimp only at h
        cases hrn : runNodes b repl ds [] rest (acc ++ [(n, st)]) with
        | mk r t2 =>
          rw [hrn] at h
          dsimp only at h
          rw [Prod.mk.injEq] at h
          have hinner : runNodes b repl ds [] rest (acc ++ [(n, st)]) =
              (Except.ok (acc ++ ext), t2) := by rw [hrn, h.1]
          obtain ⟨ext2, hsm, _⟩ :=
            runNodes_ok_structure rest (acc ++ [(n, st)]) (acc ++ ext)
              t2 hinner
          have hexteq : ext = (n, st) :: ext2 := by
            have h2 : acc ++ ext = acc ++ ((n, st) :: ext2) := by
              rw [hsm, List.append_assoc]
              rfl
            exact List.append_inj_right h2 rfl
          subst hexteq
          have hd : d ∈ ds := List.mem_of_find?_eq_some hfd
          have hnacc : n ∉ acc.map Prod.fst := by
            have hmap : ((acc ++ (n, st) :: ext2).map Prod.fst) =
                acc.map Prod.fst ++ n :: ext2.map Prod.fst := by
              simp
            rw [hmap] at hnd
            have hmid := List.nodup_middle.mp hnd
            rw [List.nodup_cons] at hmid
            intro hmem
            exact hmid.1 (List.mem_append.mpr (Or.inl hmem))
          have hres : resolveInputs acc d =
              Except.ok st.recordedInputs :=
            applyNode_none_recorded (by rw [ha])
          have hkeys : (st.recordedInputs.map Prod.fst).Nodup := by
            have hres2 : resolveList acc d.inputs =
                Except.ok st.recordedInputs := hres
            rw [resolveList_keys hres2]
            exact hw d hd
          have happly : applyNode b repl acc (some st) d =
              Except.ok (st, []) := by
            unfold applyNode
            rw [hres]
            dsimp only
            rw [inputDiff_self hkeys]
            rfl
          dsimp only
          rw [lookup_append_of_not_mem hnacc, List.lookup_cons_self,
            happly]
          dsimp only
          have hih := ih (acc ++ [(n, st)]) ext2 t2
            (by rw [hinner, List.append_assoc]; rfl)
            (by rw [List.append_assoc]; exact hnd)
          rw [List.append_assoc] at hih
          have hihs := hih
          rw [show (acc ++ ([(n, st)] ++ ext2)) =
            (acc ++ (n, st) :: ext2) from rfl] at hihs
          rw [hihs]
          rfl

theorem resolveExport_ok_secret {ds : List ResourceDescriptor}
    {sm : StateMap} {e : ExportDef} {tv : TrackedValue}
    (h : resolveExport ds sm e = Except.ok tv) :
    tv.secret = expectedSecret ds e := by
  unfold resolveExport at h
  unfold expectedSecret
  cases hsrc : e.source with
  | configVal v =>
    rw [hsrc] at h
    cases h
    rfl
  | direct nn a =>
    rw [hsrc] at h
    dsimp only at h
    cases h1 : sm.lookup nn with
    | none => rw [h1] at h; cases h
    | some stn =>
      rw [h1] at h
      dsimp only at h
      cases h2 : stn.live.lookup a with
      | none => rw [h2] at h; cases h
      | some v =>
        rw [h2] at h
        cases h
        rfl
  | derived dd =>
    rw [hsrc] at h
    dsimp only at h
    cases h1 : sm.lookup dd.sourceNode with
    | none => rw [h1] at h; cases h
    | some stn =>
      rw [h1] at h
      dsimp only at h
      cases h2 : stn.live.lookup dd.sourceAttr with
      | none => rw [h2] at h; cases h
      | some v =>
        rw [h2] at h
        cases h
        rfl

theorem exportAll_ok_forall2 {ds : List ResourceDescriptor} {sm : StateMap} :
    ∀ (defs : List ExportDef) (es : ExportSet),
      exportAll ds sm defs = Except.ok es →
      List.Forall₂
        (fun e p => p.1 = e.name ∧ resolveExport ds sm e = Except.ok p.2)
        defs es := by
  intro defs
  induction defs with
  | nil =>
    intro es h
    cases h
    exact List.Forall₂.nil
  | cons e rest ih =>
    intro es h
    unfold exportAll at h
    cases h1 : resolveExport ds sm e with
    | error err => rw [h1] at h; cases h
    | ok tv =>
      rw [h1] at h
      dsimp only at h
      cases h2 : exportAll ds sm rest with
      | error err => rw [h2] at h; cases h
      | ok es2 =>
        rw [h2] at h
        cases h
        exact List.Forall₂.cons ⟨rfl, h1⟩ (ih es2 h2)

theorem exportAll_ok_secret_map {ds : List ResourceDescriptor}
    {sm : StateMap} {defs : List ExportDef} {es : ExportSet}
    (h : exportAll ds sm defs = Except.ok es) :
    es.map (fun p => (p.1, p.2.secret)) =
      defs.map (fun e => (e.name, expectedSecret ds e)) := by
  have hf := exportAll_ok_forall2 defs es h
  clear h
  induction hf with
  | nil => rfl
  | cons hp _ ih2 =>
    simp only [List.map_cons]
    rw [hp.1, resolveExport_ok_secret hp.2, ih2]

theorem filter_secret_names (es : ExportSet) :
    (es.filter (fun p => p.2.secret)).map Prod.fst =
      ((es.map (fun p => (p.1, p.2.secret))).filter
        (fun q => q.2)).map Prod.fst := by
  induction es with
  | nil => rfl
  | cons p t ih =>
    by_cases hs : p.2.secret = true
    · simp [List.filter_cons, hs, ih]
    · rw [Bool.not_eq_true] at hs
      simp [List.filter_cons, hs, ih]

theorem sha256Round_length (st : List Nat) (kw : Nat × Nat) :
    (sha256Round st kw).length = 8 := rfl

theorem foldl_round_length (l : List (Nat × Nat)) :
    ∀ st : List Nat, st.length = 8 →
      (l.foldl sha256Round st).length = 8 := by
  induction l with
  | nil => intro st h; exact h
  | cons kw t ih => intro st _; exact ih _ (sha256Round_length st kw)

theorem sha256Compress_length (h block : List Nat) (hh : h.length = 8) :
    (sha256Compress h block).length = 8 := by
  unfold sha256Compress
  rw [List.length_map, List.length_zip, hh,
    foldl_round_length _ _ hh]
  exact Nat.min_self 8

theorem foldl_compress_length (bl : List (List Nat)) :
    ∀ h0 : List Nat, h0.length = 8 →
      (bl.foldl sha256Compress h0).length = 8 := by
  induction bl with
  | nil => intro h0 h; exact h
  | cons blk t ih => intro h0 h; exact ih _ (sha256Compress_length _ _ h)

theorem sha256Words_length (s : String) : (sha256Words s).length = 8 := by
  unfold sha256Words
  exact foldl_compress_length _ _ rfl

theorem word32Hex_length (w : Nat) : (word32Hex w).length = 8 := by
  simp [word32Hex]

theorem foldr_hex_length (ws : List Nat) :
    (ws.foldr (fun w acc => word32Hex w ++ acc) []).length =
      8 * ws.length := by
  induction ws with
  | nil => rfl
  | cons w t ih =>
    simp only [List.foldr_cons, List.length_append, word32Hex_length,
      ih, List.length_cons]
    ring

theorem sha256Hex_length (s : String) : (sha256Hex s).length = 64 := by
  unfold sha256Hex
  show (String.mk _).data.length = 64
  rw [foldr_hex_length, sha256Words_length]

theorem hexChar_mem : ∀ m, m < 16 →
    hexChar m ∈ "0123456789abcdef".data := by decide

theorem word32Hex_chars (w : Nat) :
    ∀ ch ∈ word32Hex w, ch ∈ "0123456789abcdef".data := by
  intro ch hc
  unfold word32Hex at hc
  rw [List.mem_map] at hc
  obtain ⟨i, _, heq⟩ := hc
  subst heq
  exact hexChar_mem _ (Nat.mod_lt _ (by omega))

theorem sha256Hex_chars (s : String) :
    ∀ ch ∈ (sha256Hex s).data, ch ∈ "0123456789abcdef".data := by
  show ∀ ch ∈ (sha256Words s).foldr
      (fun w acc => word32Hex w ++ acc) [], _
  generalize sha256Words s = ws
  induction ws with
  | nil => intro ch hc; cases hc
  | cons w t ih =>
    intro ch hc
    rcases List.mem_append.mp hc with h1 | h1
    · exact word32Hex_chars w ch h1
    · exact ih ch h1

/-- C1: for every acyclic dependency graph — one the Topological Scheduler
succeeds on — the produced apply order lists every node exactly once, and
scanning the order each node's apply begins only after every node it
depends on has already reached Applied; in particular every node appears
strictly after all of its dependencies. -/
theorem scheduler_order_respects_dependencies
    (ds : List ResourceDescriptor) (order : List String)
    (hu : uniqueNames ds) (h : schedule ds = Except.ok order) :
    ds.all (fun d => order.contains d.logicalName) = true ∧
    order.Nodup ∧
    depsRespectedOrder ds [] order = true := by
  obtain ⟨hdr, hcov⟩ := scheduleAux_ok_sound hu ds.length [] ds order
    (fun x hx => hx) h
  obtain ⟨hnd, _⟩ := scheduleAux_ok_nodup ds.length [] ds order hu h
  refine ⟨?_, hnd, hdr⟩
  rw [List.all_eq_true]
  intro d hd
  have := hcov d hd
  simpa [List.contains] using this

/-- Witness for C1 at the two-node demonstration graph. -/
theorem scheduler_order_respects_dependencies_witness :
    demoGraphAB.all (fun d => ["a", "b"].contains d.logicalName) = true ∧
    (["a", "b"] : List String).Nodup ∧
    depsRespectedOrder demoGraphAB [] ["a", "b"] = true :=
  scheduler_order_respects_dependencies demoGraphAB ["a", "b"]
    (by decide) rfl

/-- C2: for every graph containing a dependency cycle (a self-reference
included), scheduling fails with `CyclicDependencyError` whose node list
contains every node of the cycle — so it identifies at least one of them —
and the full run fails with that same error before issuing a single
backend call. -/
theorem cyclic_graph_fails_before_apply
    (ds : List ResourceDescriptor) (c : List String)
    (exps : List ExportDef) (b : Backend)
    (repl : String → String → Bool) (prior : StateMap)
    (hu : uniqueNames ds) (hc : isCycle ds c) :
    (cyclicNames (schedule ds)).isSome = true ∧
    (∀ x ∈ c, x ∈ (cyclicNames (schedule ds)).getD []) ∧
    cyclicNames (fullRun ⟨ds, exps⟩ b repl prior).1 =
      cyclicNames (schedule ds) ∧
    (fullRun ⟨ds, exps⟩ b repl prior).2 = [] := by
  obtain ⟨ns, heq, hns⟩ := scheduleAux_cycle hu hc ds.length [] ds
    (fun x hx => hx) (cycle_subset_names hc) (by intro x _ hab; cases hab)
  have hsch : schedule ds = Except.error (EngineError.cyclicDependency ns) :=
    heq
  refine ⟨?_, ?_, ?_, ?_⟩
  · rw [hsch]; rfl
  · intro x hx
    rw [hsch]
    simpa [cyclicNames] using hns x hx
  · show cyclicNames
        (match schedule ds with
         | Except.error e => ((Except.error e :
              Except EngineError (ExportSet × StateMap)), ([] : List BackendCall))
         | Except.ok order =>
           match runNodes b repl ds prior order [] with
           | (Except.error e, t) => (Except.error e, t)
           | (Except.ok sm, t) =>
             match exportAll ds sm exps with
             | Except.error e => (Except.error e, t)
             | Except.ok es => (Except.ok (es, sm), t)).1 =
      cyclicNames (schedule ds)
    rw [hsch]
    rfl
  · show (match schedule ds with
         | Except.error e => ((Except.error e :
              Except EngineError (ExportSet × StateMap)), ([] : List BackendCall))
         | Except.ok order =>
           match runNodes b repl ds prior order [] with
           | (Except.error e, t) => (Except.error e, t)
           | (Except.ok sm, t) =>
             match exportAll ds sm exps with
             | Except.error e => (Except.error e, t)
             | Except.ok es => (Except.ok (es, sm), t)).2 = []
    rw [hsch]

/-- Witness for C2 at the self-referencing demonstration graph. -/
theorem cyclic_graph_fails_before_apply_witness :
    "a" ∈ (cyclicNames (schedule demoGraphSelf)).getD [] ∧
    (fullRun ⟨demoGraphSelf, []⟩ mockBackend noRepl []).2 = [] :=
  ⟨(cyclic_graph_fails_before_apply demoGraphSelf ["a"] [] mockBackend
      noRepl [] (by decide) (by decide)).2.1 "a" (by decide),
   (cyclic_graph_fails_before_apply demoGraphSelf ["a"] [] mockBackend
      noRepl [] (by decide) (by decide)).2.2.2⟩

/-- C3: apply is idempotent — a successful fresh run followed by a second
run over the unchanged declaration, the same backend and the managed state
the first run left, succeeds with an identical ExportSet and issues no
backend call at all, in particular zero mutation calls. -/
theorem apply_idempotent (decl : Declaration) (b : Backend)
    (repl : String → String → Bool) (es : ExportSet) (sm : StateMap)
    (t : List BackendCall)
    (hu : uniqueNames decl.descriptors) (hw : wfInputs decl.descriptors)
    (h : fullRun decl b repl [] = (Except.ok (es, sm), t)) :
    fullRun decl b repl sm = (Except.ok (es, sm), []) := by
  unfold fullRun at h ⊢
  cases hs : schedule decl.descriptors with
  | error e =>
    rw [hs] at h
    try dsimp only at h
    cases h
  | ok order =>
    rw [hs] at h
    try dsimp only at h
    cases hrn : runNodes b repl decl.descriptors [] order [] with
    | mk r t1 =>
      rw [hrn] at h
      try dsimp only at h
      cases r with
      | error e => simp at h
      | ok sm1 =>
        try dsimp only at h
        cases hex : exportAll decl.descriptors sm1 decl.exports with
        | error e => rw [hex] at h; simp at h
        | ok es1 =>
          rw [hex] at h
          try dsimp only at h
          cases h
          obtain ⟨ext, hsm, hmap⟩ :=
            runNodes_ok_structure order [] sm t hrn
          obtain ⟨hond, _⟩ :=
            scheduleAux_ok_nodup decl.descriptors.length [] decl.descriptors
              order hu hs
          have hsmmap : sm.map Prod.fst = order := by
            rw [hsm, List.nil_append]
            exact hmap
          have hndsm : (sm.map Prod.fst).Nodup := by
            rw [hsmmap]
            exact hond
          have hrun1 : runNodes b repl decl.descriptors [] order [] =
              (Except.ok (([] : StateMap) ++ sm), t) := by
            rw [List.nil_append]
            exact hrn
          have hidem := runNodes_idem hw order [] sm t hrun1
            (by rw [List.nil_append]; exact hndsm)
          rw [List.nil_append] at hidem
          try dsimp only
          rw [hidem]
          try dsimp only
          rw [hex]

/-- Witness for C3: the docx declaration applied twice against the
demonstration backend. -/
theorem apply_idempotent_witness :
    fullRun (docxDecl "acct" "pg") mockBackend noRepl demoSm =
      (Except.ok (demoEs, demoSm), []) :=
  apply_idempotent (docxDecl "acct" "pg") mockBackend noRepl demoEs demoSm
    demoTrace (by decide) (by decide) rfl

/-- C4: the derived output — the hexadecimal SHA-256 digest of the token
value — is deterministic: two computations from the same input value are
byte-identical; the digest always has the fixed length 64 and consists of
hexadecimal digits only; and secret classification propagates through the
derivation. -/
theorem derived_value_deterministic_and_secret (x y : TrackedValue)
    (hval : x.val = y.val) :
    (applyDerived sha256Hex x).val = (applyDerived sha256Hex y).val ∧
    (x.secret = true → (applyDerived sha256Hex x).secret = true) ∧
    ∀ s : String, (sha256Hex s).length = 64 ∧
      ∀ ch ∈ (sha256Hex s).data, ch ∈ "0123456789abcdef".data := by
  refine ⟨?_, ?_, ?_⟩
  · show sha256Hex x.val = sha256Hex y.val
    rw [hval]
  · intro hs
    exact hs
  · intro s
    exact ⟨sha256Hex_length s, sha256Hex_chars s⟩

set_option maxRecDepth 4000 in
/-- Witness for C4 at the spec's own scenario token value. -/
theorem derived_value_deterministic_and_secret_witness :
    (applyDerived sha256Hex ⟨"t0ken", true⟩).secret = true ∧
    (sha256Hex "t0ken").length = 64 :=
  ⟨(derived_value_deterministic_and_secret ⟨"t0ken", true⟩ ⟨"t0ken", true⟩
      rfl).2.1 rfl,
   ((derived_value_deterministic_and_secret ⟨"t0ken", true⟩ ⟨"t0ken", true⟩
      rfl).2.2 "t0ken").1⟩

theorem fullRun_trace_calls (decl : Declaration) (b : Backend)
    (repl : String → String → Bool) (prior : StateMap) :
    ∀ c ∈ (fullRun decl b repl prior).2,
      ∃ dn ∈ decl.descriptors, callName c = dn.logicalName ∧
        (isDelete c = true → dn.protect = false) := by
  intro c hc
  unfold fullRun at hc
  cases hs : schedule decl.descriptors with
  | error e =>
    rw [hs] at hc
    try dsimp only at hc
    cases hc
  | ok order =>
    rw [hs] at hc
    try dsimp only at hc
    cases hrn : runNodes b repl decl.descriptors prior order [] with
    | mk r t =>
      rw [hrn] at hc
      try dsimp only at hc
      cases r with
      | error e =>
        try dsimp only at hc
        exact runNodes_calls_sound order [] c (by rw [hrn]; exact hc)
      | ok sm =>
        try dsimp only at hc
        cases hex : exportAll decl.descriptors sm decl.exports with
        | error e2 =>
          rw [hex] at hc
          try dsimp only at hc
          exact runNodes_calls_sound order [] c (by rw [hrn]; exact hc)
        | ok es =>
          rw [hex] at hc
          try dsimp only at hc
          exact runNodes_calls_sound order [] c (by rw [hrn]; exact hc)

/-- C5: the protection invariant — no run ever issues a delete (the first
half of a destructive replacement) against a node declared `protect=true`,
and when such a node's resolved inputs have drifted on an attribute that
forces replacement, its apply instead fails with `ProtectedResourceError`
for that node. -/
theorem protected_node_never_deleted (decl : Declaration) (b : Backend)
    (repl : String → String → Bool) (prior : StateMap)
    (d : ResourceDescriptor)
    (hu : uniqueNames decl.descriptors) (hd : d ∈ decl.descriptors)
    (hp : d.protect = true) :
    (fullRun decl b repl prior).2.all
      (fun c => !(isDelete c && (callName c == d.logicalName))) = true ∧
    ∀ (acc : StateMap) (ps : NodeState) (ci : List (String × String)),
      resolveInputs acc d = Except.ok ci →
      (inputDiff ps.recordedInputs ci).any
        (fun kv => repl d.kind kv.1) = true →
      applyNode b repl acc (some ps) d =
        Except.error (EngineError.protectedResource d.logicalName) := by
  constructor
  · rw [List.all_eq_true]
    intro c hc
    obtain ⟨dn, hdn, hname, hdel⟩ := fullRun_trace_calls decl b repl prior c hc
    cases hdc : isDelete c with
    | false => simp [hdc]
    | true =>
      have hprot := hdel hdc
      have hne : callName c ≠ d.logicalName := by
        intro he
        have : dn = d := name_inj hu hdn hd (by rw [← hname, he])
        rw [this] at hprot
        rw [hprot] at hp
        cases hp
      simp [hdc, hne]
  · intro acc ps ci hres hany
    have hne : (inputDiff ps.recordedInputs ci).isEmpty = false := by
      cases hdiffs : inputDiff ps.recordedInputs ci with
      | nil => rw [hdiffs] at hany; cases hany
      | cons a l => rfl
    unfold applyNode
    rw [hres]
    dsimp only
    simp [hne, hany, hp]

/-- Witness for C5: the docx run's trace contains no delete against the
protected auth database. -/
theorem protected_node_never_deleted_witness :
    (fullRun (docxDecl "acct" "pg") mockBackend noRepl []).2.all
      (fun c => !(isDelete c && (callName c == "docx-auth-db"))) = true :=
  (protected_node_never_deleted (docxDecl "acct" "pg") mockBackend noRepl []
    demoAuthDb (by decide) (by decide) rfl).1

/-- C6: import semantics — applying a descriptor with `importId` set and no
prior managed state issues exactly one read (by the import id) and zero
create calls, and folds the backend's read result in as the node's live
state. -/
theorem import_reads_never_creates (b : Backend)
    (repl : String → String → Bool) (acc : StateMap)
    (d : ResourceDescriptor) (iid : String) (ci : List (String × String))
    (him : d.importId = some iid)
    (hres : resolveInputs acc d = Except.ok ci) :
    applyNode b repl acc none d =
      Except.ok (⟨ci, b.readLive d.kind iid⟩,
        [BackendCall.readCall d.kind d.logicalName iid]) ∧
    ([BackendCall.readCall d.kind d.logicalName iid].filter
      isRead).length = 1 ∧
    ([BackendCall.readCall d.kind d.logicalName iid].filter
      isCreate).length = 0 := by
  refine ⟨?_, rfl, rfl⟩
  unfold applyNode
  rw [hres]
  dsimp only
  rw [him]

/-- Witness for C6 at the demonstration import descriptor. -/
theorem import_reads_never_creates_witness :
    applyNode mockBackend noRepl [] none demoImportD =
      Except.ok (⟨[("x", "1")], mockBackend.readLive "k" "ext-1"⟩,
        [BackendCall.readCall "k" "imp" "ext-1"]) :=
  (import_reads_never_creates mockBackend noRepl [] demoImportD "ext-1"
    [("x", "1")] rfl rfl).1

/-- C7: the Topological Scheduler is deterministic — two successful
schedules of the same declaration input produce the same order — because
at every step it selects, by `List.find?` over the pending list kept in
declaration order, the declaration-earliest node among those eligible. -/
theorem scheduler_deterministic_declaration_tiebreak
    (ds : List ResourceDescriptor) (order : List String)
    (h : schedule ds = Except.ok order) :
    (∀ o2, schedule ds = Except.ok o2 → o2 = order) ∧
    ∀ (fuel : Nat) (applied : List String)
      (pending : List ResourceDescriptor) (n : String) (rest : List String),
      scheduleAux fuel applied pending = Except.ok (n :: rest) →
      (pending.find? (eligibleB applied)).map (·.logicalName) = some n := by
  constructor
  · intro o2 h2
    rw [h] at h2
    exact (Except.ok.inj h2).symm
  · intro fuel applied pending n rest hh
    exact scheduleAux_ok_head fuel applied pending n rest hh

/-- Witness for C7: with two independently eligible nodes the scheduler
picks the declaration-earlier one. -/
theorem scheduler_deterministic_declaration_tiebreak_witness :
    (demoGraphXY.find? (eligibleB [])).map (·.logicalName) = some "x" :=
  (scheduler_deterministic_declaration_tiebreak demoGraphXY ["x", "y"]
    rfl).2 demoGraphXY.length [] demoGraphXY "x" ["y"] rfl

theorem fullRun_ok_export {decl : Declaration} {b : Backend}
    {repl : String → String → Bool} {prior : StateMap} {es : ExportSet}
    {sm : StateMap} {t : List BackendCall}
    (h : fullRun decl b repl prior = (Except.ok (es, sm), t)) :
    exportAll decl.descriptors sm decl.exports = Except.ok es := by
  unfold fullRun at h
  cases hs : schedule decl.descriptors with
  | error e =>
    rw [hs] at h
    try dsimp only at h
    cases h
  | ok order =>
    rw [hs] at h
    try dsimp only at h
    cases hrn : runNodes b repl decl.descriptors prior order [] with
    | mk r t1 =>
      rw [hrn] at h
      try dsimp only at h
      cases r with
      | error e => simp at h
      | ok sm1 =>
        try dsimp only at h
        cases hex : exportAll decl.descriptors sm1 decl.exports with
        | error e => rw [hex] at h; simp at h
        | ok es1 =>
          rw [hex] at h
          try dsimp only at h
          cases h
          exact hex

/-- C8: every successful run of the docx declaration exports exactly the
eight named entries, in source order, with `r2_secret_access_key` the one
and only secret-marked entry — in particular `r2_access_key_id` is not
secret. -/
theorem docx_exports_eight_names_one_secret (aid pg : String) (b : Backend)
    (repl : String → String → Bool) (prior : StateMap)
    (es : ExportSet) (sm : StateMap) (t : List BackendCall)
    (h : fullRun (docxDecl aid pg) b repl prior = (Except.ok (es, sm), t)) :
    es.map (fun p => (p.1, p.2.secret)) =
      [("cloudflare_account_id", false), ("r2_bucket_name", false),
       ("r2_endpoint", false), ("r2_access_key_id", false),
       ("r2_secret_access_key", true), ("storage_kv_namespace_id", false),
       ("auth_d1_database_id", false),
       ("session_kv_namespace_id", false)] ∧
    (es.filter (fun p => p.2.secret)).map Prod.fst =
      ["r2_secret_access_key"] := by
  have hex := fullRun_ok_export h
  have hmap := exportAll_ok_secret_map hex
  constructor
  · rw [hmap]
    rfl
  · rw [filter_secret_names es, hmap]
    rfl

/-- Witness for C8 at the demonstration run. -/
theorem docx_exports_eight_names_one_secret_witness :
    demoEs.map (fun p => (p.1, p.2.secret)) =
      [("cloudflare_account_id", false), ("r2_bucket_name", false),
       ("r2_endpoint", false), ("r2_access_key_id", false),
       ("r2_secret_access_key", true), ("storage_kv_namespace_id", false),
       ("auth_d1_database_id", false),
       ("session_kv_namespace_id", false)] :=
  (docx_exports_eight_names_one_secret "acct" "pg" mockBackend noRepl []
    demoEs demoSm demoTrace rfl).1

theorem docx_export_endpoint {aid pg : String} {sm : StateMap}
    {es : ExportSet}
    (h : exportAll (docxDescriptors aid pg) sm (docxExports aid) =
      Except.ok es) :
    es.lookup "r2_endpoint" =
      some ⟨"https://" ++ aid ++ ".r2.cloudflarestorage.com", false⟩ := by
  have hf := exportAll_ok_forall2 (docxExports aid) es h
  simp only [docxExports] at hf
  cases hf with
  | cons h1 hf =>
  cases hf with
  | cons h2 hf =>
  cases hf with
  | cons h3 hf =>
  rename_i p1 p2 p3 es3
  obtain ⟨n1, tv1⟩ := p1
  obtain ⟨n2, tv2⟩ := p2
  obtain ⟨n3, tv3⟩ := p3
  have hn1 : n1 = "cloudflare_account_id" := h1.1
  have hn2 : n2 = "r2_bucket_name" := h2.1
  have hn3 : n3 = "r2_endpoint" := h3.1
  subst hn1
  subst hn2
  subst hn3
  have htv3 : tv3 =
      (⟨"https://" ++ aid ++ ".r2.cloudflarestorage.com", false⟩ :
        TrackedValue) :=
    (Except.ok.inj h3.2).symm
  subst htv3
  rfl

/-- C9: in every successful run of the docx declaration the exported
`r2_endpoint` equals `"https://" ++ accountId ++ ".r2.cloudflarestorage.com"`
— a pure function of the configuration — and it is identical across runs
with any backend, replacement policy and prior state, so it depends on no
resource's live state. -/
theorem docx_endpoint_pure_concat (aid pg : String) (b : Backend)
    (repl : String → String → Bool) (prior : StateMap)
    (es : ExportSet) (sm : StateMap) (t : List BackendCall)
    (h : fullRun (docxDecl aid pg) b repl prior = (Except.ok (es, sm), t)) :
    es.lookup "r2_endpoint" =
      some ⟨"https://" ++ aid ++ ".r2.cloudflarestorage.com", false⟩ ∧
    ∀ (b2 : Backend) (repl2 : String → String → Bool) (prior2 : StateMap)
      (es2 : ExportSet) (sm2 : StateMap) (t2 : List BackendCall),
      fullRun (docxDecl aid pg) b2 repl2 prior2 =
        (Except.ok (es2, sm2), t2) →
      es2.lookup "r2_endpoint" = es.lookup "r2_endpoint" := by
  have h1 := docx_export_endpoint (fullRun_ok_export h)
  refine ⟨h1, ?_⟩
  intro b2 repl2 prior2 es2 sm2 t2 h2
  rw [docx_export_endpoint (fullRun_ok_export h2), h1]

/-- Witness for C9 at the demonstration run. -/
theorem docx_endpoint_pure_concat_witness :
    demoEs.lookup "r2_endpoint" =
      some ⟨"https://acct.r2.cloudflarestorage.com", false⟩ :=
  (docx_endpoint_pure_concat "acct" "pg" mockBackend noRepl []
    demoEs demoSm demoTrace rfl).1

theorem tokenPolicyResources_inj {a1 a2 : String}
    (h : tokenPolicyResources a1 = tokenPolicyResources a2) : a1 = a2 := by
  unfold tokenPolicyResources at h
  have hd := congrArg String.data h
  simp only [String.data_append] at hd
  have h2 := (List.append_inj' hd rfl).1
  have h3 := List.append_inj_right h2 rfl
  exact String.ext h3

/-- C10: the five resources of the docx declaration are all declared under
the one account identifier the program reads from configuration: each
descriptor carries it (as its `account_id` input, or inside the API token's
policy `resources` string), and no descriptor is compatible with any other
account identifier. -/
theorem docx_descriptors_single_account (aid pg : String) :
    (docxDescriptors aid pg).length = 5 ∧
    (∀ d ∈ docxDescriptors aid pg, usesAccount aid d) ∧
    (∀ d ∈ docxDescriptors aid pg, ∀ a2, usesAccount a2 d → a2 = aid) := by
  refine ⟨rfl, ?_, ?_⟩
  · intro d hd
    simp only [docxDescriptors, List.mem_cons, List.not_mem_nil,
      or_false] at hd
    rcases hd with h | h | h | h | h
    · subst h; exact Or.inl rfl
    · subst h; exact Or.inr rfl
    · subst h; exact Or.inl rfl
    · subst h; exact Or.inl rfl
    · subst h; exact Or.inl rfl
  · intro d hd a2 hu2
    simp only [docxDescriptors, List.mem_cons, List.not_mem_nil,
      or_false] at hd
    rcases hd with h | h | h | h | h
    · subst h
      rcases hu2 with h2 | h2
      · have h3 : some (Value.lit aid) = some (Value.lit a2) := h2
        exact (Value.lit.inj (Option.some.inj h3)).symm
      · have h3 : (none : Option Value) = some
            (Value.lit (tokenPolicyResources a2)) := h2
        cases h3
    · subst h
      rcases hu2 with h2 | h2
      · have h3 : (none : Option Value) = some (Value.lit a2) := h2
        cases h3
      · have h3 : some (Value.lit (tokenPolicyResources aid)) = some
            (Value.lit (tokenPolicyResources a2)) := h2
        exact (tokenPolicyResources_inj
          (Value.lit.inj (Option.some.inj h3))).symm
    · subst h
      rcases hu2 with h2 | h2
      · have h3 : some (Value.lit aid) = some (Value.lit a2) := h2
        exact (Value.lit.inj (Option.some.inj h3)).symm
      · have h3 : (none : Option Value) = some
            (Value.lit (tokenPolicyResources a2)) := h2
        cases h3
    · subst h
      rcases hu2 with h2 | h2
      · have h3 : some (Value.lit aid) = some (Value.lit a2) := h2
        exact (Value.lit.inj (Option.some.inj h3)).symm
      · have h3 : (none : Option Value) = some
            (Value.lit (tokenPolicyResources a2)) := h2
        cases h3
    · subst h
      rcases hu2 with h2 | h2
      · have h3 : some (Value.lit aid) = some (Value.lit a2) := h2
        exact (Value.lit.inj (Option.some.inj h3)).symm
      · have h3 : (none : Option Value) = some
            (Value.lit (tokenPolicyResources a2)) := h2
        cases h3

/-- Witness for C10: the protected auth database is declared under the
demonstration account. -/
theorem docx_descriptors_single_account_witness :
    usesAccount "acct" demoAuthDb :=
  (docx_descriptors_single_account "acct" "pg").2.1 demoAuthDb (by decide)
